import Mathlib

/-!
Verification of the `fromenv` library (github.com/alfred-landrum/fromenv).

The development shallowly embeds the library's data model and operations:

* the tag micro-syntax parser `parseTag` (Go `strings.SplitN(tag, sep, 2)`),
* the per-call configuration and lookup resolution `configLookup`
  (Go `config.lookup` in fromenv.go),
* the field mutator `setField` (Go `setField` in fromenv.go), including the
  builtin `strconv` parsers it calls (`parseIntGo`, `parseUintGo`,
  `parseBoolGo`, modelling the documented behaviour of Go's
  `strconv.ParseInt/ParseUint/ParseBool` with base 0, for character-level
  inputs; float fields are outside the embedding since floating point is
  not shallowly representable),
* the breadth-first structure walker `visit` (Go `visit` and
  `settableStructPtr`), run over an explicit heap of structure instances
  and driven by a fuel parameter so that runs are executable; a separate
  theorem shows the canonical fuel always suffices,
* the top-level entry point `Unmarshal` with its input validation and
  functional options (Go `Unmarshal`, `isStructPtr`, `Looker`, `Map`,
  `DefaultsOnly`, and the panicking malformed `SetFunc` registration of
  the setter variant),
* the coercion dispatch of the `SetFunc` variant (`setValue` in
  src/unnamed/part_002), in namespace `SetterVariant`.

Structure instances are identified by a natural-number address, matching the
source's visited-set keyed by storage identity.  A struct field carries the
raw annotation string (the result of Go's `field.Tag.Get`), its settability
(Go `CanSet`, i.e. whether the field is exported), and its value.  Values of
types implementing the flag.Value interface are modelled by `FVal.flagV`,
whose `Set` behaviour is supplied by an ambient `FlagImpl` method table; on a
successful `Set` the model records the string that was set.
-/

namespace Fromenv

/-- A value-source lookup: Go `LookupEnvFunc`, returning an optional value and
an optional error (modelled as its message). -/
abbrev Looker := String → Option String × Option String

/-- Ambient behaviour of `Set(string) error` methods of flag.Value types,
indexed by a type identifier: `none` means success. -/
abbrev FlagImpl := Nat → String → Option String

/-- Errors of the builtin strconv parsers: malformed literal or out of range. -/
inductive ParseErr where
  | synE
  | rangeE
deriving DecidableEq

/-- The error outcomes of an Unmarshal call, by kind.  The source wraps most
of them with the field's location via `setErr`; the kind and carried message
are what the claims distinguish. -/
inductive GoErr where
  | invalidInput
  | lookupE (msg : String)
  | unsettableE
  | unsupportedE
  | parseE (e : ParseErr)
  | flagE (msg : String)
  | customE (msg : String)
deriving DecidableEq

/-- A struct-field value.  `ptrV` is a pointer to a struct instance (or null),
`innerV` an inline nested struct instance (which has its own storage identity,
as in Go), `ifaceV` an interface-typed value (no coercion strategy applies),
`flagV` a value of a type implementing flag.Value.  Float fields are outside
the embedding (floating point). -/
inductive FVal where
  | strV (s : String)
  | intV (w : Nat) (n : Int)
  | uintV (w : Nat) (n : Nat)
  | boolV (b : Bool)
  | flagV (id : Nat) (content : String)
  | ptrV (target : Option Nat)
  | innerV (addr : Nat)
  | ifaceV
deriving DecidableEq

/-- One struct field: the raw `fromenv` annotation string (already extracted
from the struct tag), whether the field is settable (exported), and its
current value. -/
structure GoField where
  tag : String
  exported : Bool
  val : FVal
deriving DecidableEq

/-- The structure graph: storage identity (address) to field list. -/
abbrev Heap := List (Nat × List GoField)

/-- The per-call effective configuration (Go `config`). -/
structure Config where
  looker : Looker

/-- Go `strings.SplitN(s, sep, 2)` on the character list of the annotation:
split at the first occurrence of the separator only. -/
def splitN2 (sep : Char) : List Char → List Char × Option (List Char)
  | [] => ([], none)
  | c :: rest =>
    if c = sep then ([], some rest)
    else
      let r := splitN2 sep rest
      (c :: r.1, r.2)

/-- Go `parseTag` (fromenv.go): environment key and optional default encoded
in the annotation, separated by the first comma. -/
def parseTag (tag : String) : String × Option String :=
  let r := splitN2 ',' tag.data
  (String.mk r.1, r.2.map String.mk)

/-- Go `config.lookup` (fromenv.go): parse the tag; with a non-empty key, ask
the looker and substitute the tag default when the looker reports no value
(the looker's error, if any, is returned alongside). -/
def configLookup (looker : Looker) (tag : String) : Option String × Option String :=
  let kd := parseTag tag
  if kd.1.length ≠ 0 then
    let r := looker kd.1
    (if r.1 = none then kd.2 else r.1, r.2)
  else (none, none)

/-- Go's byte-level `lower`: set the 0x20 bit. -/
def lowerC (c : Char) : Char := Char.ofNat (c.toNat ||| 0x20)

/-- Digit value of a character, as in Go's strconv digit scan. -/
def digitVal (c : Char) : Option Nat :=
  if '0' ≤ c ∧ c ≤ '9' then some (c.toNat - '0'.toNat)
  else if 'a' ≤ lowerC c ∧ lowerC c ≤ 'z' then some ((lowerC c).toNat - 'a'.toNat + 10)
  else none

/-- Base detection of Go `strconv.ParseUint` with base argument 0: leading
`0b`/`0o`/`0x` prefixes, a bare leading `0` meaning octal, else decimal. -/
def baseAndRest : List Char → Nat × List Char
  | '0' :: c1 :: c2 :: t =>
    if lowerC c1 = 'b' then (2, c2 :: t)
    else if lowerC c1 = 'o' then (8, c2 :: t)
    else if lowerC c1 = 'x' then (16, c2 :: t)
    else (8, c1 :: c2 :: t)
  | '0' :: t => (8, t)
  | cs => (10, cs)

/-- Go strconv's `underscoreOK` loop: underscores must be sandwiched between
digits or follow a base prefix.  `saw` is the last-seen character class. -/
def uOKloop (hex : Bool) : List Char → Char → Bool
  | [], saw => saw ≠ '_'
  | c :: t, saw =>
    if ('0' ≤ c ∧ c ≤ '9') ∨ (hex ∧ 'a' ≤ lowerC c ∧ lowerC c ≤ 'f') then
      uOKloop hex t '0'
    else if c = '_' then
      if saw ≠ '0' then false else uOKloop hex t '_'
    else if saw = '_' then false
    else uOKloop hex t '!'

/-- Go strconv's `underscoreOK`. -/
def underscoreOK (cs : List Char) : Bool :=
  let cs1 := match cs with
    | c :: t => if c = '-' ∨ c = '+' then t else cs
    | [] => cs
  match cs1 with
  | '0' :: c1 :: t =>
    if lowerC c1 = 'b' ∨ lowerC c1 = 'o' ∨ lowerC c1 = 'x' then
      uOKloop (lowerC c1 = 'x') t '0'
    else uOKloop false cs1 '^'
  | _ => uOKloop false cs1 '^'

/-- The digit-accumulation loop of Go `strconv.ParseUint`: returns the
accumulated value, an optional error, and whether underscores were seen.
On a malformed character the returned value is 0; on overflow it is
`maxVal`, exactly as in the source. -/
def uintLoop (base : Nat) (base0 : Bool) (maxVal : Nat) :
    List Char → Nat → Bool → Nat × Option ParseErr × Bool
  | [], n, us => (n, none, us)
  | c :: cs, n, us =>
    if c = '_' ∧ base0 then uintLoop base base0 maxVal cs n true
    else
      match digitVal c with
      | none => (0, some .synE, us)
      | some d =>
        if base ≤ d then (0, some .synE, us)
        else if maxVal < n * base + d then (maxVal, some .rangeE, us)
        else uintLoop base base0 maxVal cs (n * base + d) us

/-- Go `strconv.ParseUint(s, 0, bits)` on a character list (the library always
passes base 0 and the field's bit width). -/
def parseUintL (cs : List Char) (bits : Nat) : Nat × Option ParseErr :=
  if cs = [] then (0, some .synE)
  else
    let br := baseAndRest cs
    let maxVal := 2 ^ bits - 1
    let r := uintLoop br.1 true maxVal br.2 0 false
    match r.2.1 with
    | some e => (r.1, some e)
    | none => if r.2.2 ∧ !underscoreOK cs then (0, some .synE) else (r.1, none)

/-- Go `strconv.ParseUint(str, 0, bits)`. -/
def parseUintGo (s : String) (bits : Nat) : Nat × Option ParseErr :=
  parseUintL s.data bits

/-- Go `strconv.ParseInt(str, 0, bits)`: optional sign, then `ParseUint`,
then the signed-range clamps.  On a malformed literal the returned value is
0; on overflow it is the clamped boundary of the signed range. -/
def parseIntGo (s : String) (bits : Nat) : Int × Option ParseErr :=
  match s.data with
  | [] => (0, some .synE)
  | c :: t =>
    let neg := c = '-'
    let digits := if c = '-' ∨ c = '+' then t else c :: t
    let r := parseUintL digits bits
    match r.2 with
    | some .synE => (0, some .synE)
    | _ =>
      let cutoff : Nat := 2 ^ (bits - 1)
      if ¬neg ∧ cutoff ≤ r.1 then ((cutoff : Int) - 1, some .rangeE)
      else if neg ∧ cutoff < r.1 then (-(cutoff : Int), some .rangeE)
      else (if neg then -(r.1 : Int) else (r.1 : Int), none)

/-- Go `strconv.ParseBool`. -/
def parseBoolGo (s : String) : Bool × Option ParseErr :=
  if s = "1" ∨ s = "t" ∨ s = "T" ∨ s = "true" ∨ s = "TRUE" ∨ s = "True" then
    (true, none)
  else if s = "0" ∨ s = "f" ∨ s = "F" ∨ s = "false" ∨ s = "FALSE" ∨ s = "False" then
    (false, none)
  else (false, some .synE)

/-- Go `setField` (fromenv.go): refuse unsettable fields, then try the
flag.Value interface, then the builtin kinds; any other kind is an
unsupported-type error.  Numeric kinds always store the value strconv
returned before reporting its error. -/
def setField (fi : FlagImpl) (f : GoField) (str : String) : FVal × Option GoErr :=
  if f.exported = false then (f.val, some .unsettableE)
  else
    match f.val with
    | .flagV id c =>
      match fi id str with
      | none => (.flagV id str, none)
      | some e => (.flagV id c, some (.flagE e))
    | .strV _ => (.strV str, none)
    | .intV w _ => (.intV w (parseIntGo str w).1, (parseIntGo str w).2.map .parseE)
    | .uintV w _ => (.uintV w (parseUintGo str w).1, (parseUintGo str w).2.map .parseE)
    | .boolV _ => (.boolV (parseBoolGo str).1, (parseBoolGo str).2.map .parseE)
    | .ptrV t => (.ptrV t, some .unsupportedE)
    | .innerV a => (.innerV a, some .unsupportedE)
    | .ifaceV => (.ifaceV, some .unsupportedE)

/-- The visitor closure of Go `Unmarshal` (fromenv.go): resolve via
`config.lookup`; on a lookup error or when no value resolves, stop (the field
is untouched); otherwise mutate the field with `setField`.  Returns the
field's new value and the optional error. -/
def visitorGo (fi : FlagImpl) (cfg : Config) (f : GoField) : FVal × Option GoErr :=
  let r := configLookup cfg.looker f.tag
  match r.2 with
  | some e => (f.val, some (.lookupE e))
  | none =>
    match r.1 with
    | none => (f.val, none)
    | some v => setField fi f v

/-- A traversal candidate: a value taken from a struct field, together with
the read-only marker of reflect (`ro = true` when the value was read through
an unexported field, in which case `CanSet` is false on it and on anything
dereferenced from it). -/
structure Cand where
  ro : Bool
  val : FVal
deriving DecidableEq

/-- Go `settableStructPtr` (fromenv.go): dereference one level of non-nil
pointer, and if the result is a struct, return its identity together with its
`CanSet`.  A nil pointer or non-struct value yields nothing. -/
def settableStructPtr (c : Cand) : Option (Nat × Bool) :=
  match c.val with
  | .ptrV (some a) => some (a, !c.ro)
  | .innerV a => some (a, !c.ro)
  | _ => none

/-- Fields stored at an address. -/
def lookupH : Heap → Nat → Option (List GoField)
  | [], _ => none
  | (b, fs) :: t, a => if b = a then some fs else lookupH t a

/-- Replace the fields stored at an address. -/
def updateH (h : Heap) (a : Nat) (fs : List GoField) : Heap :=
  h.map fun p => if p.1 = a then (a, fs) else p

/-- The inner field loop of Go `visit`: run the visitor over each field in
declaration order, stopping at the first error; the already-mutated fields
(including the erroring one) keep their new values. -/
def processFields (fi : FlagImpl) (cfg : Config) : List GoField → List GoField × Option GoErr
  | [] => ([], none)
  | f :: fs =>
    let r := visitorGo fi cfg f
    match r.2 with
    | some err => (⟨f.tag, f.exported, r.1⟩ :: fs, some err)
    | none =>
      let rest := processFields fi cfg fs
      (⟨f.tag, f.exported, r.1⟩ :: rest.1, rest.2)

/-- The candidates Go `visit` enqueues after processing a struct: every field
value, carrying the read-only marker of unexported fields. -/
def childCands (fs : List GoField) : List Cand :=
  fs.map fun f => ⟨!f.exported, f.val⟩

/-- Go `visit` (fromenv.go): breadth-first work-queue traversal with a
visited set keyed by structure identity.  The Lean function is driven by a
fuel parameter so that runs are executable; `visit_total` below shows the
canonical fuel always suffices.  Returns the mutated heap, the first error
(if any), and the list of visited structure identities in visit order. -/
def visit (fi : FlagImpl) (cfg : Config) :
    Nat → Heap → List Cand → List Nat → Option (Heap × Option GoErr × List Nat)
  | 0, _, _, _ => none
  | fuel + 1, heap, q, visited =>
    match q with
    | [] => some (heap, none, visited)
    | c :: rest =>
      match settableStructPtr c with
      | none => visit fi cfg fuel heap rest visited
      | some (a, settable) =>
        if settable = false then visit fi cfg fuel heap rest visited
        else if a ∈ visited then visit fi cfg fuel heap rest visited
        else
          match lookupH heap a with
          | none => visit fi cfg fuel heap rest visited
          | some fs =>
            let r := processFields fi cfg fs
            let heap' := updateH heap a r.1
            match r.2 with
            | some err => some (heap', some err, visited ++ [a])
            | none => visit fi cfg fuel heap' (rest ++ childCands r.1) (visited ++ [a])

/-- Weight of the not-yet-visited part of the heap: one unit per instance
plus one per field.  Each traversal step strictly decreases
queue-length + weight, which is why `visitFuel` suffices. -/
def heapWeight (visited : List Nat) (h : Heap) : Nat :=
  ((h.filter fun p => decide (p.1 ∉ visited)).map fun p => 1 + p.2.length).sum

/-- Canonical fuel for a `visit` run. -/
def visitFuel (h : Heap) (q : List Cand) : Nat :=
  q.length + heapWeight [] h + 1

/-- The initial traversal candidate built from the root pointer. -/
def rootCand (a : Nat) : Cand := ⟨false, .ptrV (some a)⟩

/-- The input of an Unmarshal call, by shape: Go `isStructPtr` only accepts a
non-nil pointer to a struct. -/
inductive GoInput where
  | nilI
  | structVal
  | nilPtr
  | ptrNonStruct
  | ptrToStruct (addr : Nat)
deriving DecidableEq

/-- Go `isStructPtr` (fromenv.go). -/
def isStructPtr : GoInput → Bool
  | .ptrToStruct _ => true
  | _ => false

/-- The root address of a valid input. -/
def rootAddr : GoInput → Option Nat
  | .ptrToStruct a => some a
  | _ => none

/-- A functional option of `Unmarshal`.  `Looker`, `Map` and `DefaultsOnly`
replace the effective looker (Go `Map(nil)` behaviour for `DefaultsOnly`);
`setFuncBad` models the `SetFunc` option of the setter variant applied to a
malformed function, which panics when the option is applied. -/
inductive OptionGo where
  | lookerO (f : Looker)
  | mapO (m : List (String × String))
  | defaultsOnly
  | setFuncBad

/-- Lookup in the map handed to the `Map` option. -/
def lookupStrMap : List (String × String) → String → Option String
  | [], _ => none
  | (k, v) :: t, key => if k = key then some v else lookupStrMap t key

/-- Apply one option to the configuration; `none` models a panic. -/
def applyOpt (_c : Config) : OptionGo → Option Config
  | .lookerO f => some ⟨f⟩
  | .mapO m => some ⟨fun k => (lookupStrMap m k, none)⟩
  | .defaultsOnly => some ⟨fun k => (lookupStrMap [] k, none)⟩
  | .setFuncBad => none

/-- Apply the options in argument order (later options override earlier). -/
def applyOpts : Config → List OptionGo → Option Config
  | c, [] => some c
  | c, o :: os =>
    match applyOpt c o with
    | none => none
    | some c' => applyOpts c' os

/-- The outcome of an Unmarshal call: a panic while applying an option, fuel
exhaustion of the executable walker (shown unreachable), or a normal return
carrying the mutated heap and the optional error. -/
inductive UResult where
  | panicked
  | fuelOut
  | done (heap : Heap) (err : Option GoErr)
deriving DecidableEq

/-- Go `Unmarshal` (fromenv.go): validate the input shape first — before any
option is applied — then build the effective configuration from the ambient
environment looker and the options, and drive `visit` from the root. -/
def Unmarshal (fi : FlagImpl) (osEnv : Looker) (inp : GoInput) (heap : Heap)
    (opts : List OptionGo) : UResult :=
  match rootAddr inp with
  | none => .done heap (some .invalidInput)
  | some a =>
    match applyOpts ⟨osEnv⟩ opts with
    | none => .panicked
    | some cfg =>
      match visit fi cfg (visitFuel heap [rootCand a]) heap [rootCand a] [] with
      | some (h', e, _) => .done h' e
      | none => .fuelOut

/-- The kinds `setField` has no coercion strategy for: its switch falls
through to the unsupported-type error exactly on pointer, struct and
interface kinds. -/
def unsupportedKind : FVal → Bool
  | .ptrV _ => true
  | .innerV _ => true
  | .ifaceV => true
  | _ => false

/-- A flag.Value method table whose `Set` always succeeds. -/
def fiNone : FlagImpl := fun _ _ => none

/-- A value source with no entries and no errors. -/
def emptyEnv : Looker := fun _ => (none, none)

/-- A value source that fails every lookup, as in `TestLookupConfig`. -/
def failEnv : Looker := fun _ => (none, some "lookup error")

/-- A value source holding only the entry used by the `TestTypeLogic` S6
scenario. -/
def s6Env : Looker := fun k => (if k = "S5Str" then some "S5Str-val" else none, none)

/-- The S6 scenario of `TestTypeLogic`: a root whose first pointer field
points at instance 1 (a struct with an annotated field matched by `s6Env`)
and whose second pointer field is null; the null pointer's pointee type is
the same annotated struct type. -/
def s6Heap : Heap :=
  [(0, [⟨"", true, .ptrV (some 1)⟩, ⟨"", true, .ptrV none⟩]),
   (1, [⟨"S5Str", true, .strV ""⟩])]

end Fromenv

namespace SetterVariant

/-! Embedding of the coercion dispatch of the `SetFunc` variant
(`setValue` in src/unnamed/part_002): a per-call registry of custom
`func(*T, string) error` functions keyed by type identity, the generic
`Set(string) error` capability, and the builtin kind parsers. -/

/-- The builtin kind of a type: string, sized integer kinds, boolean, or a
kind with no builtin strategy (e.g. an interface or struct type).  Float
kinds are outside the embedding (floating point). -/
inductive KindB where
  | strK
  | intK (w : Nat)
  | uintK (w : Nat)
  | boolK
  | otherK
deriving DecidableEq

/-- A target type: its identity (Go `reflect.Type` equality), its builtin
kind, and whether it exposes a `Set(string) error` method. -/
structure Ty where
  id : Nat
  kind : KindB
  hasSetter : Bool
deriving DecidableEq

/-- A value of the variant's value domain; `absV` is the opaque state of a
type with no builtin kind, mutated only by custom or setter strategies. -/
inductive V2 where
  | strV (s : String)
  | intV (n : Int)
  | uintV (n : Nat)
  | boolV (b : Bool)
  | absV (state : Nat)
deriving DecidableEq

/-- A registered custom coercion function (the reflect-lifted form of a
`func(*T, string) error`): new value and optional error message. -/
abbrev SetFn := V2 → String → V2 × Option String

/-- Ambient behaviour of the `Set(string) error` methods, by type identity. -/
abbrev SetterImpl := Nat → V2 → String → V2 × Option String

/-- The per-call configuration of the variant: the custom coercion functions
registered via `SetFunc`, keyed by type identity. -/
structure Config2 where
  setFuncs : List (Nat × SetFn)

/-- Registry lookup by type identity (Go `cfg.setFuncs[value.Type()]`). -/
def findFn : List (Nat × SetFn) → Nat → Option SetFn
  | [], _ => none
  | (k, fn) :: t, id => if k = id then some fn else findFn t id

/-- The strategy-dispatch core of `setValue` (part_002, after the pointer
step): custom function first, then the `Set(string) error` capability, then
the builtin kind switch, and otherwise an unsupported-type error. -/
def dispatch (cfg : Config2) (si : SetterImpl) (ty : Ty) (v : V2) (str : String) :
    V2 × Option Fromenv.GoErr :=
  match findFn cfg.setFuncs ty.id with
  | some fn =>
    let r := fn v str
    (r.1, r.2.map .customE)
  | none =>
    if ty.hasSetter then
      let r := si ty.id v str
      (r.1, r.2.map .flagE)
    else
      match ty.kind with
      | .strK => (.strV str, none)
      | .intK w => (.intV (Fromenv.parseIntGo str w).1, (Fromenv.parseIntGo str w).2.map .parseE)
      | .uintK w => (.uintV (Fromenv.parseUintGo str w).1, (Fromenv.parseUintGo str w).2.map .parseE)
      | .boolK => (.boolV (Fromenv.parseBoolGo str).1, (Fromenv.parseBoolGo str).2.map .parseE)
      | .otherK => (v, some .unsupportedE)

/-- The zero value allocated by `reflect.New` for a pointee type. -/
def zeroVal (ty : Ty) : V2 :=
  match ty.kind with
  | .strK => .strV ""
  | .intK _ => .intV 0
  | .uintK _ => .uintV 0
  | .boolK => .boolV false
  | .otherK => .absV 0

/-- A field value of the variant: either a direct value or a pointer field
(whose pointee type is `ty`), possibly null. -/
inductive F2 where
  | direct (ty : Ty) (v : V2)
  | ptrTo (ty : Ty) (v : Option V2)
deriving DecidableEq

/-- `setValue` (part_002): a null pointer field is first given freshly
allocated zero storage and the pointee is coerced into; then the settability
check, then the strategy dispatch.  `canset` is `CanSet` of the value the
dispatch writes to.  (For a nil pointer field read through an unexported
field the source would panic in `value.Set`; that corner is outside the
embedding.) -/
def setValue (cfg : Config2) (si : SetterImpl) (canset : Bool) (fv : F2) (str : String) :
    F2 × Option Fromenv.GoErr :=
  let tyv : Ty × V2 × (V2 → F2) :=
    match fv with
    | .ptrTo ty pv => (ty, pv.getD (zeroVal ty), fun v => .ptrTo ty (some v))
    | .direct ty v => (ty, v, fun v => .direct ty v)
  if canset = false then (fv, some .unsettableE)
  else
    let r := dispatch cfg si tyv.1 tyv.2.1 str
    (tyv.2.2 r.1, r.2)

/-- A coercion strategy of the registry, in the spec's order. -/
inductive Strat where
  | customS
  | genericS
  | builtinS
  | unsupportedS
deriving DecidableEq

/-- Modelled from the spec: whether a strategy applies to a type under the
given registry — a custom function registered for exactly this type, the
type's own generic set-from-string capability, or a builtin primitive kind;
the unsupported-type strategy always "applies" as the failure fallback. -/
def applicable (cfg : Config2) (ty : Ty) : Strat → Bool
  | .customS => (findFn cfg.setFuncs ty.id).isSome
  | .genericS => ty.hasSetter
  | .builtinS => decide (ty.kind ≠ .otherK)
  | .unsupportedS => true

/-- Modelled from the spec: the Coercion Registry's resolution order — the
first applicable strategy among custom, generic capability, builtin,
unsupported-type error. -/
def firstStrategy (cfg : Config2) (ty : Ty) : Strat :=
  (([Strat.customS, Strat.genericS, Strat.builtinS].find? (applicable cfg ty)).getD
    Strat.unsupportedS)

/-- Run one strategy of the registry on a value. -/
def runStrat (cfg : Config2) (si : SetterImpl) (ty : Ty) (v : V2) (str : String) :
    Strat → V2 × Option Fromenv.GoErr
  | .customS =>
    match findFn cfg.setFuncs ty.id with
    | some fn =>
      let r := fn v str
      (r.1, r.2.map .customE)
    | none => (v, none)
  | .genericS =>
    let r := si ty.id v str
    (r.1, r.2.map .flagE)
  | .builtinS =>
    match ty.kind with
    | .strK => (.strV str, none)
    | .intK w => (.intV (Fromenv.parseIntGo str w).1, (Fromenv.parseIntGo str w).2.map .parseE)
    | .uintK w => (.uintV (Fromenv.parseUintGo str w).1, (Fromenv.parseUintGo str w).2.map .parseE)
    | .boolK => (.boolV (Fromenv.parseBoolGo str).1, (Fromenv.parseBoolGo str).2.map .parseE)
    | .otherK => (v, some .unsupportedE)
  | .unsupportedS => (v, some .unsupportedE)

/-- Modelled from the spec: coerce by running the first applicable strategy. -/
def registrySpec (cfg : Config2) (si : SetterImpl) (ty : Ty) (v : V2) (str : String) :
    V2 × Option Fromenv.GoErr :=
  runStrat cfg si ty v str (firstStrategy cfg ty)

end SetterVariant

namespace Fromenv

/-! Theorems. -/

theorem setField_unsupported (fi : FlagImpl) (tag : String) (v : FVal) (str : String)
    (hv : unsupportedKind v = true) :
    setField fi ⟨tag, true, v⟩ str = (v, some .unsupportedE) := by
  cases v <;> simp_all [setField, unsupportedKind]

theorem configLookup_eq (looker : Looker) (tag : String) (lv : Option String)
    (err : Option String) (hkey : (parseTag tag).1.length ≠ 0)
    (hlook : looker (parseTag tag).1 = (lv, err)) :
    configLookup looker tag =
      (if lv = none then (parseTag tag).2 else lv, err) := by
  unfold configLookup
  rw [if_pos hkey, hlook]

/-- C2: the tag parser splits at the first occurrence of the separator only:
with no separator the key is the whole string and the default is absent; with
a separator the key is the prefix before its first occurrence and the default
is the entire suffix, returned verbatim (the suffix `suf` is arbitrary and
may itself contain further separator occurrences).  `parseTag` of fromenv.go
is `splitN2 ','` and the setter variant's is `splitN2 '='`. -/
theorem c2_tag_split (sep : Char) (pre suf : List Char) (h : sep ∉ pre) :
    splitN2 sep pre = (pre, none) ∧
    splitN2 sep (pre ++ sep :: suf) = (pre, some suf) := by
  induction pre with
  | nil => simp [splitN2]
  | cons c t ih =>
    have hc : ¬c = sep := fun hh => h (by simp [hh])
    have ht : sep ∉ t := fun hh => h (List.mem_cons_of_mem c hh)
    have hr := ih ht
    constructor
    · simp [splitN2, hc, hr.1]
    · simp [splitN2, hc, hr.2]

theorem c2_tag_split_witness :
    splitN2 ',' "nokey".data = ("nokey".data, none) ∧
    splitN2 ',' ("nokey".data ++ ',' :: "def-val,with-sep".data) =
      ("nokey".data, some "def-val,with-sep".data) :=
  c2_tag_split ',' "nokey".data "def-val,with-sep".data (by decide)

/-- C1: for an annotated field (non-empty key) whose lookup succeeds without
error, the value fed to coercion is the looked-up value when present (the tag
default is ignored then), else the tag default when present; and when both
are absent, the field is left untouched and no error is reported. -/
theorem c1_resolved_value (fi : FlagImpl) (cfg : Config) (f : GoField) (lv : Option String)
    (hkey : (parseTag f.tag).1.length ≠ 0)
    (hlook : cfg.looker (parseTag f.tag).1 = (lv, none)) :
    visitorGo fi cfg f =
      match lv, (parseTag f.tag).2 with
      | some v, _ => setField fi f v
      | none, some d => setField fi f d
      | none, none => (f.val, none) := by
  unfold visitorGo
  rw [configLookup_eq cfg.looker f.tag lv none hkey hlook]
  cases lv with
  | some v => simp
  | none => cases hd : (parseTag f.tag).2 <;> simp [hd]

theorem c1_resolved_value_witness :
    visitorGo fiNone ⟨fun _ => (some "x", none)⟩ ⟨"k,d", true, .strV "old"⟩ =
      setField fiNone ⟨"k,d", true, .strV "old"⟩ "x" :=
  c1_resolved_value fiNone ⟨fun _ => (some "x", none)⟩ ⟨"k,d", true, .strV "old"⟩
    (some "x") (by decide) rfl

/-- C3 counterexample: an interface-typed field (no coercion strategy) with a
non-empty annotation, against a value source whose lookup errors.  The claim
says the unsupported-type error is detected before any lookup is attempted
and therefore returned; the code performs the lookup first and returns the
lookup error. -/
theorem c3_counterexample :
    visitorGo fiNone ⟨failEnv⟩ ⟨"k1", true, .ifaceV⟩ =
      (.ifaceV, some (.lookupE "lookup error")) ∧
    some (GoErr.lookupE "lookup error") ≠ some GoErr.unsupportedE := by
  constructor
  · rfl
  · decide

/-- C3 as amended: for a field of a type with no coercion strategy, the
unsupported-type error is detected after confirming settability but only
after the Value Source lookup has been performed and a value resolved; when
both an unsupported-type error and a lookup error would apply, the lookup
error is the one returned. -/
theorem c3_lookup_error_precedence (fi : FlagImpl) (cfg : Config) (tag : String)
    (v : FVal) (lv : Option String) (err : Option String)
    (hv : unsupportedKind v = true)
    (hkey : (parseTag tag).1.length ≠ 0)
    (hlook : cfg.looker (parseTag tag).1 = (lv, err)) :
    visitorGo fi cfg ⟨tag, true, v⟩ =
      (v, match err with
          | some e => some (.lookupE e)
          | none =>
            match (if lv = none then (parseTag tag).2 else lv) with
            | some _ => some .unsupportedE
            | none => none) := by
  unfold visitorGo
  rw [configLookup_eq cfg.looker tag lv err hkey hlook]
  cases err with
  | some e => simp
  | none =>
    cases hr : (if lv = none then (parseTag tag).2 else lv) with
    | none => simp [hr]
    | some d => simp [hr, setField_unsupported fi tag v d hv]

theorem c3_lookup_error_precedence_witness :
    visitorGo fiNone ⟨failEnv⟩ ⟨"k1", true, .ifaceV⟩ =
      (.ifaceV, some (.lookupE "lookup error")) :=
  c3_lookup_error_precedence fiNone ⟨failEnv⟩ "k1" .ifaceV none (some "lookup error")
    rfl (by decide) rfl

/-- C4 counterexample: an unsettable field with the non-empty annotation
`k1`, against a value source in which `k1` is absent (and the tag has no
default).  The claim says an unsettable-field error is returned regardless of
what the Value Source returns; the code reports no error and leaves the field
untouched — the field is silently skipped. -/
theorem c4_counterexample :
    visitorGo fiNone ⟨emptyEnv⟩ ⟨"k1", false, .intV 64 0⟩ = (.intV 64 0, none) := by
  rfl

/-- C4 as amended: an unsettable field with a non-empty annotation produces
an unsettable-field error, regardless of its type and of any coercion
outcome, whenever a value resolves for its key (lookup value present, or
lookup absent with a tag default present); when the lookup returns absent and
no default exists, the field is silently skipped with no error; and a Value
Source error is returned as a lookup error instead. -/
theorem c4_unsettable_when_value_resolves (fi : FlagImpl) (cfg : Config) (tag : String)
    (v : FVal) (lv : Option String) (err : Option String)
    (hkey : (parseTag tag).1.length ≠ 0)
    (hlook : cfg.looker (parseTag tag).1 = (lv, err)) :
    visitorGo fi cfg ⟨tag, false, v⟩ =
      (v, match err with
          | some e => some (.lookupE e)
          | none =>
            match (if lv = none then (parseTag tag).2 else lv) with
            | some _ => some .unsettableE
            | none => none) := by
  unfold visitorGo
  rw [configLookup_eq cfg.looker tag lv err hkey hlook]
  cases err with
  | some e => simp
  | none =>
    cases hr : (if lv = none then (parseTag tag).2 else lv) with
    | none => simp [hr]
    | some d => simp [hr, setField]

theorem c4_unsettable_when_value_resolves_witness :
    visitorGo fiNone ⟨fun _ => (some "k1-val", none)⟩ ⟨"k1", false, .intV 64 0⟩ =
      (.intV 64 0, some .unsettableE) :=
  c4_unsettable_when_value_resolves fiNone ⟨fun _ => (some "k1-val", none)⟩ "k1"
    (.intV 64 0) (some "k1-val") none (by decide) rfl

theorem uintLoop_err (base : Nat) (base0 : Bool) (maxVal : Nat) :
    ∀ (cs : List Char) (n : Nat) (us : Bool),
      ((uintLoop base base0 maxVal cs n us).2.1 = some .synE →
        (uintLoop base base0 maxVal cs n us).1 = 0) ∧
      ((uintLoop base base0 maxVal cs n us).2.1 = some .rangeE →
        (uintLoop base base0 maxVal cs n us).1 = maxVal) := by
  intro cs
  induction cs with
  | nil => intro n us; simp [uintLoop]
  | cons c t ih =>
    intro n us
    by_cases hu : c = '_' ∧ base0 = true
    · simpa [uintLoop, hu] using ih n true
    · rcases hd : digitVal c with _ | d
      · simp [uintLoop, hu, hd]
      · by_cases hb : base ≤ d
        · simp [uintLoop, hu, hd, hb]
        · by_cases hm : maxVal < n * base + d
          · simp [uintLoop, hu, hd, hb, hm]
          · simpa [uintLoop, hu, hd, hb, hm] using ih (n * base + d) us

theorem parseUintL_err (cs : List Char) (bits : Nat) :
    ((parseUintL cs bits).2 = some .synE → (parseUintL cs bits).1 = 0) ∧
    ((parseUintL cs bits).2 = some .rangeE → (parseUintL cs bits).1 = 2 ^ bits - 1) := by
  have h := uintLoop_err (baseAndRest cs).1 true (2 ^ bits - 1) (baseAndRest cs).2 0 false
  by_cases hnil : cs = []
  · simp [parseUintL, hnil]
  · rcases hr : uintLoop (baseAndRest cs).1 true (2 ^ bits - 1) (baseAndRest cs).2 0 false
      with ⟨n, oe, us⟩
    rw [hr] at h
    simp only [parseUintL, hnil, if_false, hr]
    rcases oe with _ | e
    · split_ifs <;> simp
    · cases e
      · simpa using h.1 rfl
      · simpa using h.2 rfl

theorem parseIntGo_err (s : String) (bits : Nat) :
    ((parseIntGo s bits).2 = some .synE → (parseIntGo s bits).1 = 0) ∧
    ((parseIntGo s bits).2 = some .rangeE →
      (parseIntGo s bits).1 = ((2 ^ (bits - 1) : Nat) : Int) - 1 ∨
        (parseIntGo s bits).1 = -((2 ^ (bits - 1) : Nat) : Int)) := by
  rcases hs : s.data with _ | ⟨c, t⟩
  · simp [parseIntGo, hs]
  · simp only [parseIntGo, hs]
    rcases hu : parseUintL (if c = '-' ∨ c = '+' then t else c :: t) bits with ⟨un, oe⟩
    rcases oe with _ | e
    · split_ifs <;> simp
    · cases e
      · simp
      · split_ifs <;> simp

/-- C9: on a signed or unsigned integer field, `setField` always writes the
value the strconv parser returned into the field, and then returns the
parser's error: the parser's result on failure is 0 for a malformed literal
and the clamped boundary of the type's range for an out-of-range input, so
the field is not left unchanged on a coercion failure.  (Float fields follow
the same code path but floating point is outside the embedding.) -/
theorem c9_numeric_set_before_error (fi : FlagImpl) (w : Nat) (n : Int) (m : Nat)
    (tag str : String) :
    setField fi ⟨tag, true, .intV w n⟩ str =
      (.intV w (parseIntGo str w).1, (parseIntGo str w).2.map .parseE) ∧
    setField fi ⟨tag, true, .uintV w m⟩ str =
      (.uintV w (parseUintGo str w).1, (parseUintGo str w).2.map .parseE) ∧
    ((parseIntGo str w).2 = none ∨ parseIntGo str w = (0, some .synE) ∨
      parseIntGo str w = (((2 ^ (w - 1) : Nat) : Int) - 1, some .rangeE) ∨
      parseIntGo str w = (-((2 ^ (w - 1) : Nat) : Int), some .rangeE)) ∧
    ((parseUintGo str w).2 = none ∨ parseUintGo str w = (0, some .synE) ∨
      parseUintGo str w = (2 ^ w - 1, some .rangeE)) := by
  refine ⟨rfl, rfl, ?_, ?_⟩
  · rcases he : (parseIntGo str w).2 with _ | e
    · exact Or.inl rfl
    · cases e
      · exact Or.inr (Or.inl (by
          have := (parseIntGo_err str w).1 he
          exact Prod.ext this he))
      · rcases (parseIntGo_err str w).2 he with h | h
        · exact Or.inr (Or.inr (Or.inl (Prod.ext h he)))
        · exact Or.inr (Or.inr (Or.inr (Prod.ext h he)))
  · rcases he : (parseUintGo str w).2 with _ | e
    · exact Or.inl rfl
    · cases e
      · exact Or.inr (Or.inl (Prod.ext ((parseUintL_err str.data w).1 he) he))
      · exact Or.inr (Or.inr (Prod.ext ((parseUintL_err str.data w).2 he) he))

end Fromenv

namespace SetterVariant

/-- C6: the coercion dispatch of `setValue` equals the spec's Coercion
Registry resolution order — the first applicable strategy among: a custom
function registered for exactly the field's type, the type's own
`Set(string) error` generic capability, the builtin parser for its primitive
kind, and otherwise an unsupported-type error.  In particular a registered
custom function wins over both the generic capability and any builtin. -/
theorem c6_registry_order (cfg : Config2) (si : SetterImpl) (ty : Ty) (v : V2)
    (str : String) :
    dispatch cfg si ty v str = registrySpec cfg si ty v str := by
  unfold dispatch registrySpec firstStrategy
  rcases hf : findFn cfg.setFuncs ty.id with _ | fn
  · rcases hs : ty.hasSetter
    · rcases hk : ty.kind <;>
        simp [List.find?, applicable, hf, hs, hk, runStrat]
    · simp [List.find?, applicable, hf, hs, runStrat]
  · simp [List.find?, applicable, hf, runStrat]

end SetterVariant

namespace Fromenv

/-- C8: when the input is not a non-nil pointer to a structure — nil, a
structure passed by value, a nil pointer, or a pointer to a non-structure —
`Unmarshal` fails immediately with the invalid-input error, before any
configuration option is applied, so the options (including a panicking
malformed `SetFunc` registration) have no effect and the heap is untouched. -/
theorem c8_invalid_input_before_options (fi : FlagImpl) (osEnv : Looker) (inp : GoInput)
    (heap : Heap) (opts : List OptionGo) (h : isStructPtr inp = false) :
    Unmarshal fi osEnv inp heap opts = .done heap (some .invalidInput) := by
  cases inp <;> simp_all [Unmarshal, rootAddr, isStructPtr]

theorem c8_invalid_input_before_options_witness :
    Unmarshal fiNone emptyEnv .structVal [] [.setFuncBad] =
      .done [] (some .invalidInput) :=
  c8_invalid_input_before_options fiNone emptyEnv .structVal [] [.setFuncBad] rfl

/-- C7 counterexample: the S6 scenario of `TestTypeLogic`.  The root's second
pointer field starts null; its pointee type (the type of instance 1) has an
annotated field `S5Str` for which the value source holds an entry.  The
claim says Unmarshal allocates fresh storage and sets the nested field; the
run shows the pointer field is still null afterwards, no storage was
allocated (the heap has the same two instances), and only the instance
reached through the non-nil pointer was set. -/
theorem c7_counterexample :
    Unmarshal fiNone s6Env (.ptrToStruct 0) s6Heap [] =
      .done
        [(0, [⟨"", true, .ptrV (some 1)⟩, ⟨"", true, .ptrV none⟩]),
         (1, [⟨"S5Str", true, .strV "S5Str-val"⟩])]
        none := by
  decide

/-- C7 as amended: a pointer field that starts null is never dereferenced,
descended into, or given allocated storage by the walker — the candidate is
skipped outright, so the field remains null and nothing reachable through it
is set, whether or not annotations (with matching Value Source entries) are
reachable through its pointee type; in particular storage is never allocated
speculatively. -/
theorem c7_nil_ptr_skipped (fi : FlagImpl) (cfg : Config) (fuel : Nat) (heap : Heap)
    (ro : Bool) (rest : List Cand) (visited : List Nat) :
    visit fi cfg (fuel + 1) heap (⟨ro, .ptrV none⟩ :: rest) visited =
      visit fi cfg fuel heap rest visited := by
  rfl

/-- C10: a structure instance reachable only through an unexported
(read-only, unsettable) struct-typed field is skipped entirely by the
walker.  First conjunct: any candidate carrying the read-only marker (which
`childCands` attaches exactly to the values of unexported fields) is dropped
without visiting, mutating, or erroring.  Second conjunct: the S9 scenario of
`TestTypeLogic` — a root whose only field is an untagged unexported struct
field holding instance 1, whose own fields `fs` are arbitrary (they may carry
non-empty annotations matched by the value source `cfg`): the walk succeeds,
the heap is unchanged, and only the root was visited. -/
theorem c10_unexported_struct_skipped :
    (∀ (fi : FlagImpl) (cfg : Config) (fuel : Nat) (heap : Heap) (v : FVal)
        (rest : List Cand) (visited : List Nat),
      visit fi cfg (fuel + 1) heap (⟨true, v⟩ :: rest) visited =
        visit fi cfg fuel heap rest visited) ∧
    (∀ (fi : FlagImpl) (cfg : Config) (k : Nat) (fs : List GoField),
      visit fi cfg (k + 1 + 1 + 1) [(0, [⟨"", false, .innerV 1⟩]), (1, fs)]
        [rootCand 0] [] =
        some ([(0, [⟨"", false, .innerV 1⟩]), (1, fs)], none, [0])) := by
  constructor
  · intro fi cfg fuel heap v rest visited
    cases v
    case ptrV t => cases t <;> rfl
    all_goals rfl
  · intro fi cfg k fs
    rfl

theorem heapWeight_cons (vis : List Nat) (b : Nat) (gs : List GoField) (t : Heap) :
    heapWeight vis ((b, gs) :: t) =
      (if b ∈ vis then 0 else 1 + gs.length) + heapWeight vis t := by
  by_cases hb : b ∈ vis <;> simp [heapWeight, List.filter_cons, hb]

theorem updateH_fst (h : Heap) (a : Nat) (fs : List GoField) :
    (updateH h a fs).map Prod.fst = h.map Prod.fst := by
  induction h with
  | nil => rfl
  | cons p t ih =>
    by_cases hp : p.1 = a <;> simp [updateH, hp] <;> simpa [updateH] using ih

theorem lookupH_mem {h : Heap} {a : Nat} {fs : List GoField}
    (hl : lookupH h a = some fs) : a ∈ h.map Prod.fst := by
  induction h with
  | nil => simp [lookupH] at hl
  | cons p t ih =>
    rcases p with ⟨b, gs⟩
    by_cases hb : b = a
    · simp [hb]
    · simp only [lookupH, if_neg hb] at hl
      simp [ih hl]

theorem heapWeight_visited_update_le (t : Heap) (a : Nat) (fs' : List GoField)
    (vis : List Nat) :
    heapWeight (vis ++ [a]) (updateH t a fs') ≤ heapWeight vis t := by
  induction t with
  | nil => simp [heapWeight, updateH]
  | cons p t ih =>
    rcases p with ⟨b, gs⟩
    by_cases hb : b = a
    · subst hb
      have hcons : updateH ((b, gs) :: t) b fs' = (b, fs') :: updateH t b fs' := by
        simp [updateH]
      rw [hcons, heapWeight_cons, heapWeight_cons]
      have hmem : b ∈ vis ++ [b] := by simp
      rw [if_pos hmem]
      by_cases hv : b ∈ vis <;> simp [hv] <;> omega
    · have hcons : updateH ((b, gs) :: t) a fs' = (b, gs) :: updateH t a fs' := by
        simp [updateH, hb]
      rw [hcons, heapWeight_cons, heapWeight_cons]
      have hiff : b ∈ vis ++ [a] ↔ b ∈ vis := by simp [hb]
      by_cases hv : b ∈ vis
      · rw [if_pos (hiff.mpr hv), if_pos hv]
        omega
      · rw [if_neg (fun hh => hv (hiff.mp hh)), if_neg hv]
        omega

theorem heapWeight_update (h : Heap) (a : Nat) (fs fs' : List GoField)
    (vis : List Nat) (hl : lookupH h a = some fs) (hv : a ∉ vis) :
    heapWeight (vis ++ [a]) (updateH h a fs') + 1 + fs.length ≤ heapWeight vis h := by
  induction h with
  | nil => simp [lookupH] at hl
  | cons p t ih =>
    rcases p with ⟨b, gs⟩
    by_cases hb : b = a
    · subst hb
      have hgs : gs.length = fs.length := by
        have : gs = fs := by simpa [lookupH] using hl
        rw [this]
      have hcons : updateH ((b, gs) :: t) b fs' = (b, fs') :: updateH t b fs' := by
        simp [updateH]
      rw [hcons, heapWeight_cons, heapWeight_cons]
      have hmem : b ∈ vis ++ [b] := by simp
      rw [if_pos hmem, if_neg hv]
      have := heapWeight_visited_update_le t b fs' vis
      omega
    · simp only [lookupH, if_neg hb] at hl
      have hcons : updateH ((b, gs) :: t) a fs' = (b, gs) :: updateH t a fs' := by
        simp [updateH, hb]
      rw [hcons, heapWeight_cons, heapWeight_cons]
      have hiff : b ∈ vis ++ [a] ↔ b ∈ vis := by simp [hb]
      have := ih hl
      by_cases hbv : b ∈ vis
      · rw [if_pos (hiff.mpr hbv), if_pos hbv]
        omega
      · rw [if_neg (fun hh => hbv (hiff.mp hh)), if_neg hbv]
        omega

theorem processFields_length (fi : FlagImpl) (cfg : Config) (fs : List GoField) :
    (processFields fi cfg fs).1.length = fs.length := by
  induction fs with
  | nil => rfl
  | cons f t ih =>
    simp only [processFields]
    rcases (visitorGo fi cfg f).2 with _ | e <;> simp [ih]

theorem visit_total (fi : FlagImpl) (cfg : Config) :
    ∀ (fuel : Nat) (heap : Heap) (q : List Cand) (visited : List Nat),
      q.length + heapWeight visited heap < fuel →
      (visit fi cfg fuel heap q visited).isSome := by
  intro fuel
  induction fuel with
  | zero => intro heap q visited h; omega
  | succ fuel ih =>
    intro heap q visited h
    cases q with
    | nil => simp [visit]
    | cons c rest =>
      have hlen : rest.length + heapWeight visited heap < fuel := by
        simp only [List.length_cons] at h
        omega
      rcases hsp : settableStructPtr c with _ | ⟨a, settable⟩
      · simpa [visit, hsp] using ih heap rest visited hlen
      · by_cases hset : settable = false
        · simpa [visit, hsp, hset] using ih heap rest visited hlen
        · by_cases hmem : a ∈ visited
          · simpa [visit, hsp, hset, hmem] using ih heap rest visited hlen
          · rcases hl : lookupH heap a with _ | fs
            · simpa [visit, hsp, hset, hmem, hl] using ih heap rest visited hlen
            · rcases hpf : processFields fi cfg fs with ⟨fs', e⟩
              rcases e with _ | err
              · have hfs' : fs'.length = fs.length := by
                  have := processFields_length fi cfg fs
                  rw [hpf] at this
                  exact this
                have hw := heapWeight_update heap a fs fs' visited hl hmem
                have hnext : (rest ++ childCands fs').length +
                    heapWeight (visited ++ [a]) (updateH heap a fs') < fuel := by
                  simp only [List.length_append, childCands, List.length_map, hfs']
                  omega
                simpa [visit, hsp, hset, hmem, hl, hpf] using
                  ih (updateH heap a fs') (rest ++ childCands fs') (visited ++ [a]) hnext
              · simp [visit, hsp, hset, hmem, hl, hpf]

theorem visit_order (fi : FlagImpl) (cfg : Config) :
    ∀ (fuel : Nat) (heap : Heap) (q : List Cand) (visited : List Nat)
      (heap' : Heap) (err : Option GoErr) (order : List Nat),
      visit fi cfg fuel heap q visited = some (heap', err, order) →
      visited.Nodup →
      order.Nodup ∧ ∀ a ∈ order, a ∈ visited ∨ a ∈ heap.map Prod.fst := by
  intro fuel
  induction fuel with
  | zero => intro heap q visited heap' err order hres; cases hres
  | succ fuel ih =>
    intro heap q visited heap' err order hres hnd
    cases q with
    | nil =>
      simp only [visit, Option.some.injEq, Prod.mk.injEq] at hres
      obtain ⟨rfl, rfl, rfl⟩ := hres
      exact ⟨hnd, fun a ha => Or.inl ha⟩
    | cons c rest =>
      rcases hsp : settableStructPtr c with _ | ⟨a, settable⟩
      · rw [show visit fi cfg (fuel + 1) heap (c :: rest) visited =
            visit fi cfg fuel heap rest visited by simp [visit, hsp]] at hres
        exact ih heap rest visited heap' err order hres hnd
      · by_cases hset : settable = false
        · rw [show visit fi cfg (fuel + 1) heap (c :: rest) visited =
              visit fi cfg fuel heap rest visited by simp [visit, hsp, hset]] at hres
          exact ih heap rest visited heap' err order hres hnd
        · by_cases hmem : a ∈ visited
          · rw [show visit fi cfg (fuel + 1) heap (c :: rest) visited =
                visit fi cfg fuel heap rest visited by simp [visit, hsp, hset, hmem]] at hres
            exact ih heap rest visited heap' err order hres hnd
          · rcases hl : lookupH heap a with _ | fs
            · rw [show visit fi cfg (fuel + 1) heap (c :: rest) visited =
                  visit fi cfg fuel heap rest visited by
                    simp [visit, hsp, hset, hmem, hl]] at hres
              exact ih heap rest visited heap' err order hres hnd
            · have hnd' : (visited ++ [a]).Nodup := by
                simp [List.nodup_append, hnd, hmem]
              have hadom : a ∈ heap.map Prod.fst := lookupH_mem hl
              rcases hpf : processFields fi cfg fs with ⟨fs', e⟩
              rcases e with _ | err0
              · rw [show visit fi cfg (fuel + 1) heap (c :: rest) visited =
                    visit fi cfg fuel (updateH heap a fs') (rest ++ childCands fs')
                      (visited ++ [a]) by simp [visit, hsp, hset, hmem, hl, hpf]] at hres
                have hrec := ih (updateH heap a fs') (rest ++ childCands fs')
                  (visited ++ [a]) heap' err order hres hnd'
                refine ⟨hrec.1, fun x hx => ?_⟩
                rcases hrec.2 x hx with hxv | hxd
                · rcases List.mem_append.mp hxv with hxv | hxa
                  · exact Or.inl hxv
                  · have : x = a := by simpa using hxa
                    exact Or.inr (this ▸ hadom)
                · rw [updateH_fst] at hxd
                  exact Or.inr hxd
              · rw [show visit fi cfg (fuel + 1) heap (c :: rest) visited =
                    some (updateH heap a fs', some err0, visited ++ [a]) by
                      simp [visit, hsp, hset, hmem, hl, hpf]] at hres
                simp only [Option.some.injEq, Prod.mk.injEq] at hres
                obtain ⟨rfl, rfl, rfl⟩ := hres
                refine ⟨hnd', fun x hx => ?_⟩
                rcases List.mem_append.mp hx with hxv | hxa
                · exact Or.inl hxv
                · have : x = a := by simpa using hxa
                  exact Or.inr (this ▸ hadom)

/-- C5: for every structure graph (cyclic or aliased ones included) the
traversal terminates — the canonical fuel `visitFuel` always yields a result
— and the list of visited structure identities has no duplicates and lies in
the heap's domain, so each distinct instance is visited at most once and the
number of visits is bounded by the number of distinct instances, not by any
cycle's depth.  The walker runs `processFields` exactly once per entry of the
visit order, so each visited instance's directly annotated fields are
processed exactly once per call. -/
theorem c5_traversal_terminates (fi : FlagImpl) (cfg : Config) (heap : Heap) (root : Nat) :
    ∃ (heap' : Heap) (err : Option GoErr) (order : List Nat),
      visit fi cfg (visitFuel heap [rootCand root]) heap [rootCand root] [] =
        some (heap', err, order) ∧
      order.Nodup ∧
      (∀ a ∈ order, a ∈ heap.map Prod.fst) ∧
      order.length ≤ (heap.map Prod.fst).dedup.length := by
  have htot := visit_total fi cfg (visitFuel heap [rootCand root]) heap [rootCand root] []
    (by simp [visitFuel])
  rcases hres : visit fi cfg (visitFuel heap [rootCand root]) heap [rootCand root] []
    with _ | ⟨heap', err, order⟩
  · rw [hres] at htot; cases htot
  · have hprops := visit_order fi cfg _ heap [rootCand root] [] heap' err order hres
      List.nodup_nil
    have hdom : ∀ a ∈ order, a ∈ heap.map Prod.fst := by
      intro a ha
      rcases hprops.2 a ha with h | h
      · cases h
      · exact h
    refine ⟨heap', err, order, rfl, hprops.1, hdom, ?_⟩
    calc order.length = order.toFinset.card := (List.toFinset_card_of_nodup hprops.1).symm
      _ ≤ (heap.map Prod.fst).toFinset.card := by
          apply Finset.card_le_card
          intro x hx
          exact List.mem_toFinset.mpr (hdom x (List.mem_toFinset.mp hx))
      _ = (heap.map Prod.fst).dedup.length := List.card_toFinset _

end Fromenv
